import Mathlib

/-!
Verification of the Funkin-AI decision core against its specification.

The embedding below translates the two decision variants of the repository:

* the socket server (`AI/test_socket_server.py`): hit-window evaluation
  (`analyze_notes`), per-lane hold tracking (`active_holds`), response
  formatting (`format_actions`) and the per-line receive-loop step;
* the deferred client (`ai_client.py`): the scheduled-note registry and
  note scheduling (`process_message`), and the timed press/release task
  (`hit_note`);
* the newline-framed protocol reader shared by both entry points.

Timestamps and durations are modelled as rationals (the Python values are
JSON numbers); booleans and strings are modelled directly.
-/

/-- One note observation as consumed by the server's `analyze_notes`
(fields read via `note.get(...)`; `conductorTime` is `none` when the field
is absent, in which case the snapshot's conductor time is used). -/
structure Note where
  direction : Int
  strumTime : ℚ
  conductorTime : Option ℚ
  isHoldNote : Bool
  length : ℚ
  mayHit : Bool
  hasMissed : Bool
  hasBeenHit : Bool
deriving DecidableEq

/-- `HIT_WINDOW_MS = 160.0` in `test_socket_server.py`. -/
def HIT_WINDOW_MS : ℚ := 160

/-- `get_key_for_direction` of the server. -/
def getKeyForDirection (d : Int) : String :=
  if d = 0 then "left"
  else if d = 1 then "down"
  else if d = 2 then "up"
  else if d = 3 then "right"
  else "none"

/-- `note.get('conductorTime', current_conductor_time)`: the note's own
conductor time if present, else the snapshot's conductor time `t`. -/
def refTime (t : ℚ) (n : Note) : ℚ := n.conductorTime.getD t

/-- `time_difference = strum_time - conductor_time`. -/
def timeDifference (t : ℚ) (n : Note) : ℚ := n.strumTime - refTime t n

/-- The eligibility filter of `analyze_notes`: right lane, not hit,
not missed, may be hit. -/
def isCandidate (d : Int) (n : Note) : Bool :=
  n.direction == d && !n.hasBeenHit && !n.hasMissed && n.mayHit

/-- The `hitable_notes` list built by `analyze_notes` for one direction:
eligible notes whose time difference lies within the symmetric hit window,
paired with the absolute time difference. -/
def hitableNotes (notes : List Note) (t : ℚ) (d : Int) : List (Note × ℚ) :=
  notes.filterMap fun n =>
    if isCandidate d n then
      let td := timeDifference t n
      if -HIT_WINDOW_MS ≤ td ∧ td ≤ HIT_WINDOW_MS then some (n, |td|) else none
    else none

/-- Stable insertion into a list ascending by the second component. -/
def insertByDiff (x : Note × ℚ) : List (Note × ℚ) → List (Note × ℚ)
  | [] => [x]
  | y :: ys => if x.2 < y.2 then x :: y :: ys else y :: insertByDiff x ys

/-- Stable ascending sort by absolute time difference, modelling
`hitable_notes.sort(key=lambda x: x[1])` (Python's sort is stable). -/
def sortByDiff : List (Note × ℚ) → List (Note × ℚ)
  | [] => []
  | x :: xs => insertByDiff x (sortByDiff xs)

/-- One entry of the server's `active_holds` dictionary. -/
structure Hold where
  startTime : ℚ
  endTime : ℚ
  note : Note
deriving DecidableEq

/-- The `active_holds` dictionary, keyed by direction. -/
abbrev Holds := Int → Option Hold

/-- Update of the `active_holds` dictionary at one direction. -/
def setHold (holds : Holds) (d : Int) (v : Option Hold) : Holds :=
  fun d' => if d' = d then v else holds d'

/-- The expiry sweep at the top of `analyze_notes`: every hold with
`current_conductor_time >= end_time` is removed. -/
def expireHolds (t : ℚ) (holds : Holds) : Holds := fun d =>
  match holds d with
  | some h => if h.endTime ≤ t then none else some h
  | none => none

/-- One iteration of the per-direction loop of `analyze_notes`, threading
the accumulated action list and the `active_holds` dictionary.  An active
hold keeps the key pressed and skips evaluation; otherwise the best-timed
hitable note is accepted when its absolute difference is at most 80 ms,
opening a hold of duration `max length 200` for hold notes. -/
def laneStep (notes : List Note) (t : ℚ) (acc : List String × Holds)
    (d : Int) : List String × Holds :=
  let (actions, holds) := acc
  match holds d with
  | some _ => (actions ++ [getKeyForDirection d], holds)
  | none =>
    match sortByDiff (hitableNotes notes t d) with
    | [] => (actions, holds)
    | (bestNote, bestDiff) :: _ =>
      if bestDiff ≤ 80 then
        if getKeyForDirection d = "none" then (actions, holds)
        else
          (actions ++ [getKeyForDirection d],
           if bestNote.isHoldNote then
             setHold holds d (some ⟨t, t + max bestNote.length 200, bestNote⟩)
           else holds)
      else (actions, holds)

/-- `analyze_notes(notes_data, game_timestamp)` of the server: an empty
notes collection returns no actions at once (leaving `active_holds`
untouched); otherwise expired holds are removed and the four directions
are evaluated in order against the shared dictionary. -/
def analyzeNotes (notes : List Note) (t : ℚ) (holds : Holds) :
    List String × Holds :=
  if notes.isEmpty then ([], holds)
  else [0, 1, 2, 3].foldl (laneStep notes t) ([], expireHolds t holds)

/-- The outcome of evaluating a single direction whose prior hold state is
`hd`: the actions this direction contributes and its resulting hold entry.
Each iteration of the Python loop reads and writes `active_holds` only at
its own direction key and appends only its own key name, so the loop is
equivalent to this per-direction function (proved in `laneStep_eq`). -/
def laneDecision (notes : List Note) (t : ℚ) (hd : Option Hold) (d : Int) :
    List String × Option Hold :=
  match hd with
  | some h => ([getKeyForDirection d], some h)
  | none =>
    match sortByDiff (hitableNotes notes t d) with
    | [] => ([], none)
    | (bestNote, bestDiff) :: _ =>
      if bestDiff ≤ 80 then
        if getKeyForDirection d = "none" then ([], none)
        else
          ([getKeyForDirection d],
           if bestNote.isHoldNote then
             some ⟨t, t + max bestNote.length 200, bestNote⟩
           else none)
      else ([], none)

/-- `format_actions`: deduplication preserving first occurrence. -/
def addUnique (acc : List String) (a : String) : List String :=
  if a ∈ acc then acc else acc ++ [a]

/-- `format_actions(actions)` of the server. -/
def formatActions (actions : List String) : String :=
  if actions.isEmpty then "none"
  else String.intercalate "," (actions.foldl addUnique [])

/-- A decoded snapshot as read by the server loop (`game_state.get`
accesses with their defaults; `timestamp` is `none` when absent, in which
case the server falls back to its wall clock). -/
structure GameState where
  mainState : String
  isPlaying : Bool
  timestamp : Option ℚ
  notes : List Note

/-- One iteration of the server receive loop for a complete line:
a line that fails to decode answers `none` and leaves the holds alone;
a playing snapshot runs `analyze_notes`; any other snapshot clears
`active_holds` and answers `none`. -/
def stepLine (wallMs : ℚ) (msg : Option GameState) (holds : Holds) :
    String × Holds :=
  match msg with
  | none => ("none", holds)
  | some gs =>
    if gs.mainState = "PLAYING" ∧ gs.isPlaying = true then
      let r := analyzeNotes gs.notes (gs.timestamp.getD wallMs) holds
      (formatActions r.1, r.2)
    else ("none", fun _ => none)

/-- The server receive loop over a sequence of decoded lines: one response
is sent per complete line, threading the hold dictionary. -/
def runSession (wallMs : ℚ) (msgs : List (Option GameState)) (holds : Holds) :
    List String × Holds :=
  match msgs with
  | [] => ([], holds)
  | m :: ms =>
    let r := stepLine wallMs m holds
    let s := runSession wallMs ms r.2
    (r.1 :: s.1, s.2)

/-- One note observation as consumed by the client's `process_message`
(fields read via `note.get(...)` with their defaults applied; note that
`tooEarly` defaults to `true` when absent). -/
structure CNote where
  direction : Int
  strumTime : ℚ
  mayHit : Bool
  hasMissed : Bool
  tooEarly : Bool
  hasBeenHit : Bool
deriving DecidableEq

/-- The note identity of `process_message`:
`note_id = strum_time * 10 + direction`. -/
def noteId (n : CNote) : ℚ := n.strumTime * 10 + n.direction

/-- One timed press/release task started by `process_message` via
`threading.Thread(target=hit_note, args=(sock, direction, hit_delay))`;
`noteId` records which registry entry caused the thread to start. -/
structure ScheduledTask where
  noteId : ℚ
  direction : Int
  delayMs : ℚ
deriving DecidableEq

/-- One iteration of the note loop of `process_message`, threading the
`scheduled_notes` registry (a list of identities, kept duplicate-free) and
the list of tasks started this message.  A note passing the eligibility
filter, not yet registered, and within the `[0, 150]` ms horizon is
registered and starts a task with delay `max 0 (time_until_hit - 30)`. -/
def processNote (currentTime : ℚ) (acc : List ℚ × List ScheduledTask)
    (n : CNote) : List ℚ × List ScheduledTask :=
  let sched := acc.1
  let tasks := acc.2
  if n.mayHit && !n.hasMissed && !n.tooEarly then
    if noteId n ∈ sched then (sched, tasks)
    else
      let timeUntilHit := n.strumTime - currentTime
      if 0 ≤ timeUntilHit ∧ timeUntilHit ≤ 150 then
        (sched ++ [noteId n],
         tasks ++ [⟨noteId n, n.direction, max 0 (timeUntilHit - 30)⟩])
      else (sched, tasks)
  else (sched, tasks)

/-- `process_message` for a `noteData` message: registry entries whose
identity is absent from the current notes are dropped, then every current
note is considered for scheduling.  Returns the updated registry and the
tasks started while processing this message. -/
def processMessage (currentTime : ℚ) (notes : List CNote) (sched : List ℚ) :
    List ℚ × List ScheduledTask :=
  let ids := notes.map noteId
  let sched1 := sched.filter (fun i => i ∈ ids)
  notes.foldl (processNote currentTime) (sched1, [])

/-- The timed trace of `hit_note(sock, direction, delay_ms)`, as offsets
from the moment the task is started: the press command is sent after
`delay_ms` and the release a fixed 60 ms later (`time.sleep(0.06)`).
Each event is (offset, keyCode, pressed). -/
def hitNote (direction : Int) (delayMs : ℚ) : List (ℚ × Int × Bool) :=
  [(delayMs, direction, true), (delayMs + 60, direction, false)]

/-- Splitting a character stream on the newline terminator, modelling
Python's `buffer.split('\n')`: always returns one more piece than there
are terminators, the last piece being the text after the last terminator. -/
def splitNl : List Char → List (List Char)
  | [] => [[]]
  | c :: cs =>
    if c = '\n' then [] :: splitNl cs
    else
      match splitNl cs with
      | [] => [[c]]
      | l :: ls => (c :: l) :: ls

/-- The `if line.strip():` guard of both receive loops: a line is kept
exactly when it contains a non-whitespace character. -/
def keepLine (l : List Char) : Bool := l.any fun c => !c.isWhitespace

/-- One `feed` of the frame reader (both `connect_to_fnf` and the server
loop): append the new data to the carried buffer, split on the
terminator, keep the trailing incomplete piece as the new buffer, and
yield the non-blank complete lines. -/
def feed (buf data : List Char) : List (List Char) × List Char :=
  let parts := splitNl (buf ++ data)
  (parts.dropLast.filter keepLine, parts.getLastD [])

/-- Stated from the claim wording: the candidate set for lane `d` — right
lane, not hit, not missed, may be hit, and time difference within the
inclusive window `[-160, 160]` ms. -/
def laneCandidates (notes : List Note) (t : ℚ) (d : Int) : List Note :=
  notes.filter fun n =>
    isCandidate d n &&
      (decide (-(160 : ℚ) ≤ timeDifference t n) &&
       decide (timeDifference t n ≤ 160))

/-- The minimum of a list of rationals, `none` for the empty list. -/
def minDiff : List ℚ → Option ℚ
  | [] => none
  | a :: l =>
    match minDiff l with
    | none => some a
    | some b => some (min a b)

/-- Stated from the claim wording: the minimum absolute time difference
over the lane's candidate set; the candidate chosen by the evaluator
attains exactly this value, whatever tie-break is used. -/
def bestAbsDiff (notes : List Note) (t : ℚ) (d : Int) : Option ℚ :=
  minDiff ((laneCandidates notes t d).map fun n => |timeDifference t n|)

/-- The empty `active_holds` dictionary. -/
def emptyHolds : Holds := fun _ => none

/-- A placeholder note observation used inside concrete hold entries. -/
def dummyNote : Note := ⟨0, 0, none, false, 0, false, false, false⟩

/-- A perfectly timed tap note on lane 0. -/
def w1note : Note := ⟨0, 100, some 100, false, 0, true, false, false⟩

/-- A hold note on lane 0 whose own conductor time (1000) differs from the
snapshot timestamp it will be evaluated at (900). -/
def c2note : Note := ⟨0, 1000, some 1000, true, 500, true, false, false⟩

/-- A hold note on lane 1 with a 50 ms length, below the 200 ms floor. -/
def w2note : Note := ⟨1, 1000, some 1000, true, 50, true, false, false⟩

/-- A non-playing snapshot. -/
def gsWait : GameState := ⟨"WAITING", true, none, []⟩

/-- A hold entry expiring at conductor time 100. -/
def c4hold : Hold := ⟨0, 100, dummyNote⟩

/-- A hold entry expiring at conductor time 900. -/
def c5hold : Hold := ⟨0, 900, dummyNote⟩

/-- A hold entry on lane 2 expiring at conductor time 1000. -/
def w5hold : Hold := ⟨0, 1000, dummyNote⟩

/-- A client note on lane 3 at strum time 100 ms. -/
def cxA : CNote := ⟨3, 100, true, false, false, false⟩

/-- A client note on lane 0 at the fractional strum time 100.3 ms:
its identity `100.3 * 10 + 0` collides with `cxA`'s `100 * 10 + 3`. -/
def cxB : CNote := ⟨0, 1003 / 10, true, false, false, false⟩

/-- A client note on lane 0 at strum time 50 ms. -/
def wnA : CNote := ⟨0, 50, true, false, false, false⟩

/-- A client note on lane 1 at strum time 60 ms. -/
def wnB : CNote := ⟨1, 60, true, false, false, false⟩

/-- A client note on lane 1 arriving 100 ms before its strum time when the
current time is 100. -/
def wn7 : CNote := ⟨1, 200, true, false, false, false⟩

/-- A client note that upstream has already marked as hit but that still
carries `mayHit = true`. -/
def nHit : CNote := ⟨2, 100, true, false, false, true⟩

theorem setHold_self (hs : Holds) (d : Int) (v : Option Hold) :
    setHold hs d v d = v := by simp [setHold]

theorem setHold_ne (hs : Holds) (v : Option Hold) {d d' : Int} (h : d' ≠ d) :
    setHold hs d v d' = hs d' := by simp [setHold, h]

theorem setHold_eq_self {hs : Holds} {d : Int} {v : Option Hold}
    (h : hs d = v) : setHold hs d v = hs := by
  funext d'
  by_cases hd : d' = d
  · subst hd; simp [setHold, h]
  · simp [setHold, hd]

/-- Each iteration of the per-direction loop reads and writes the shared
dictionary only at its own key, so it factors through `laneDecision`. -/
theorem laneStep_eq (notes : List Note) (t : ℚ) (acts : List String)
    (hs : Holds) (d : Int) :
    laneStep notes t (acts, hs) d =
      (acts ++ (laneDecision notes t (hs d) d).1,
       setHold hs d (laneDecision notes t (hs d) d).2) := by
  cases hhd : hs d with
  | some h =>
      simp [laneStep, laneDecision, hhd, setHold_eq_self hhd]
  | none =>
      cases hsort : sortByDiff (hitableNotes notes t d) with
      | nil => simp [laneStep, laneDecision, hhd, hsort, setHold_eq_self hhd]
      | cons x tl =>
          obtain ⟨bn, bd⟩ := x
          by_cases h80 : bd ≤ 80
          · by_cases hk : getKeyForDirection d = "none"
            · simp [laneStep, laneDecision, hhd, hsort, h80, hk,
                setHold_eq_self hhd]
            · by_cases hh : bn.isHoldNote
              · simp [laneStep, laneDecision, hhd, hsort, h80, hk, hh]
              · simp [laneStep, laneDecision, hhd, hsort, h80, hk, hh,
                  setHold_eq_self hhd]
          · simp [laneStep, laneDecision, hhd, hsort, h80, setHold_eq_self hhd]

/-- The actions of a non-trivial evaluation cycle are the concatenation of
the four per-direction contributions, each computed from that direction's
post-expiry hold state. -/
theorem analyzeNotes_acts (notes : List Note) (t : ℚ) (hs : Holds)
    (hne : notes ≠ []) :
    (analyzeNotes notes t hs).1 =
      (laneDecision notes t (expireHolds t hs 0) 0).1 ++
      ((laneDecision notes t (expireHolds t hs 1) 1).1 ++
       ((laneDecision notes t (expireHolds t hs 2) 2).1 ++
        (laneDecision notes t (expireHolds t hs 3) 3).1)) := by
  cases notes with
  | nil => exact absurd rfl hne
  | cons a l =>
      simp only [analyzeNotes, List.isEmpty_cons, Bool.false_eq_true,
        if_false, List.foldl_cons, List.foldl_nil]
      rw [laneStep_eq, laneStep_eq, laneStep_eq, laneStep_eq]
      simp [setHold_self, setHold_ne]

/-- The resulting hold dictionary of a non-trivial evaluation cycle,
read pointwise: each of the four directions holds its own `laneDecision`
outcome; any other key just went through the expiry sweep. -/
theorem analyzeNotes_holds_eq (notes : List Note) (t : ℚ) (hs : Holds)
    (hne : notes ≠ []) (d : Int) :
    (analyzeNotes notes t hs).2 d =
      if d = 3 then (laneDecision notes t (expireHolds t hs 3) 3).2
      else if d = 2 then (laneDecision notes t (expireHolds t hs 2) 2).2
      else if d = 1 then (laneDecision notes t (expireHolds t hs 1) 1).2
      else if d = 0 then (laneDecision notes t (expireHolds t hs 0) 0).2
      else expireHolds t hs d := by
  cases notes with
  | nil => exact absurd rfl hne
  | cons a l =>
      simp only [analyzeNotes, List.isEmpty_cons, Bool.false_eq_true,
        if_false, List.foldl_cons, List.foldl_nil]
      rw [laneStep_eq, laneStep_eq, laneStep_eq, laneStep_eq]
      by_cases h3 : d = 3
      · subst h3; simp [setHold_self, setHold_ne]
      · by_cases h2 : d = 2
        · subst h2; simp [setHold_self, setHold_ne]
        · by_cases h1 : d = 1
          · subst h1; simp [setHold_self, setHold_ne]
          · by_cases h0 : d = 0
            · subst h0; simp [setHold_self, setHold_ne]
            · simp [setHold_ne hs, h3, h2, h1, h0, setHold, setHold_self]

theorem expireHolds_of_none {t : ℚ} {hs : Holds} {d : Int}
    (h : hs d = none) : expireHolds t hs d = none := by
  simp [expireHolds, h]

theorem expireHolds_live {t : ℚ} {hs : Holds} {d : Int} {h : Hold}
    (hh : hs d = some h) (hl : t < h.endTime) :
    expireHolds t hs d = some h := by
  simp [expireHolds, hh, not_le.2 hl]

theorem expireHolds_dead {t : ℚ} {hs : Holds} {d : Int} {h : Hold}
    (hh : hs d = some h) (hl : h.endTime ≤ t) :
    expireHolds t hs d = none := by
  simp [expireHolds, hh, hl]

theorem insertByDiff_head_cons (x y : Note × ℚ) (ys : List (Note × ℚ)) :
    (insertByDiff x (y :: ys)).head?.map Prod.snd = some (min x.2 y.2) := by
  by_cases h : x.2 < y.2
  · simp [insertByDiff, h, min_eq_left h.le]
  · simp [insertByDiff, h, min_eq_right (le_of_not_lt h)]

/-- The head of the stable sort carries the minimum absolute difference. -/
theorem sortByDiff_headDiff (l : List (Note × ℚ)) :
    (sortByDiff l).head?.map Prod.snd = minDiff (l.map Prod.snd) := by
  induction l with
  | nil => rfl
  | cons x xs ih =>
      cases hs : sortByDiff xs with
      | nil =>
          have h0 : minDiff (xs.map Prod.snd) = none := by
            rw [← ih, hs]; rfl
          simp [sortByDiff, hs, insertByDiff, minDiff, h0]
      | cons y ys =>
          have h0 : minDiff (xs.map Prod.snd) = some y.2 := by
            rw [← ih, hs]; rfl
          simp only [sortByDiff, hs, List.map_cons, minDiff, h0,
            insertByDiff_head_cons]

/-- The `hitable_notes` list is exactly the candidate set paired with its
absolute time differences. -/
theorem hitableNotes_eq (notes : List Note) (t : ℚ) (d : Int) :
    hitableNotes notes t d =
      (laneCandidates notes t d).map fun n => (n, |timeDifference t n|) := by
  simp only [hitableNotes, laneCandidates]
  induction notes with
  | nil => rfl
  | cons n ns ih =>
      rw [List.filterMap_cons, List.filter_cons]
      by_cases hc : isCandidate d n = true
      · by_cases hw : -HIT_WINDOW_MS ≤ timeDifference t n ∧
            timeDifference t n ≤ HIT_WINDOW_MS
        · have hw1 : -(160 : ℚ) ≤ timeDifference t n := hw.1
          have hw2 : timeDifference t n ≤ (160 : ℚ) := hw.2
          simp [hc, hw, hw1, hw2, ih]
        · have hw' : ¬(-(160 : ℚ) ≤ timeDifference t n ∧
              timeDifference t n ≤ (160 : ℚ)) := hw
          simp [hc, hw, hw', ih]
      · simp [hc, ih]

/-- The minimum absolute difference over the candidates is the head
difference produced by the evaluator's sort. -/
theorem bestAbsDiff_eq (notes : List Note) (t : ℚ) (d : Int) :
    bestAbsDiff notes t d =
      (sortByDiff (hitableNotes notes t d)).head?.map Prod.snd := by
  have hcomp : (Prod.snd ∘ fun n : Note => (n, |timeDifference t n|)) =
      fun n : Note => |timeDifference t n| := rfl
  rw [sortByDiff_headDiff, hitableNotes_eq, List.map_map, hcomp]
  rfl

/-- Every action a direction contributes is its own key name. -/
theorem laneDecision_mem {notes : List Note} {t : ℚ} {hd : Option Hold}
    {d : Int} {a : String} (h : a ∈ (laneDecision notes t hd d).1) :
    a = getKeyForDirection d := by
  unfold laneDecision at h
  cases hd with
  | some hh => simpa using h
  | none =>
      cases hsort : sortByDiff (hitableNotes notes t d) with
      | nil => rw [hsort] at h; simp at h
      | cons x tl =>
          obtain ⟨bn, bd⟩ := x
          rw [hsort] at h
          by_cases h80 : bd ≤ 80
          · by_cases hk : getKeyForDirection d = "none"
            · simp [h80, hk] at h
            · simp [h80, hk] at h; exact h
          · simp [h80] at h

/-- `get_key_for_direction` separates the four playable directions. -/
theorem key_inj {d₁ d₂ : Int}
    (h₁ : d₁ = 0 ∨ d₁ = 1 ∨ d₁ = 2 ∨ d₁ = 3)
    (h₂ : d₂ = 0 ∨ d₂ = 1 ∨ d₂ = 2 ∨ d₂ = 3)
    (h : getKeyForDirection d₁ = getKeyForDirection d₂) : d₁ = d₂ := by
  rcases h₁ with rfl | rfl | rfl | rfl <;>
    rcases h₂ with rfl | rfl | rfl | rfl <;>
    first
      | rfl
      | (exfalso; revert h; decide)

/-- The response contains a playable direction's key exactly when that
direction's own evaluation contributes it: no other direction can emit it. -/
theorem key_mem_acts_iff (notes : List Note) (t : ℚ) (hs : Holds) (d : Int)
    (hd4 : d = 0 ∨ d = 1 ∨ d = 2 ∨ d = 3) (hne : notes ≠ []) :
    getKeyForDirection d ∈ (analyzeNotes notes t hs).1 ↔
      getKeyForDirection d ∈ (laneDecision notes t (expireHolds t hs d) d).1 := by
  rw [analyzeNotes_acts notes t hs hne]
  constructor
  · intro h
    have hlane : ∀ i : Int, (i = 0 ∨ i = 1 ∨ i = 2 ∨ i = 3) →
        getKeyForDirection d ∈ (laneDecision notes t (expireHolds t hs i) i).1 →
        getKeyForDirection d ∈ (laneDecision notes t (expireHolds t hs d) d).1 := by
      intro i hi4 hmem
      have hik := laneDecision_mem hmem
      have hdi : d = i := key_inj hd4 hi4 hik
      subst hdi
      exact hmem
    rcases List.mem_append.1 h with h0 | h123
    · exact hlane 0 (Or.inl rfl) h0
    rcases List.mem_append.1 h123 with h1 | h23
    · exact hlane 1 (Or.inr (Or.inl rfl)) h1
    rcases List.mem_append.1 h23 with h2 | h3
    · exact hlane 2 (Or.inr (Or.inr (Or.inl rfl))) h2
    · exact hlane 3 (Or.inr (Or.inr (Or.inr rfl))) h3
  · intro h
    rcases hd4 with rfl | rfl | rfl | rfl
    · exact List.mem_append.2 (Or.inl h)
    · exact List.mem_append.2 (Or.inr (List.mem_append.2 (Or.inl h)))
    · exact List.mem_append.2 (Or.inr (List.mem_append.2 (Or.inr
        (List.mem_append.2 (Or.inl h)))))
    · exact List.mem_append.2 (Or.inr (List.mem_append.2 (Or.inr
        (List.mem_append.2 (Or.inr h)))))

/-- C1: for a playing snapshot and a playable lane with no active hold, the
evaluator presses the lane's key exactly when the candidate set — right
lane, not hit, not missed, may be hit, time difference within the inclusive
window [-160, 160] ms — is non-empty and its minimum absolute time
difference (the difference of the chosen first-seen minimiser) is at most
80 ms; otherwise the lane stays idle. -/
theorem evaluator_press_iff (notes : List Note) (t : ℚ) (holds : Holds)
    (d : Int) (hd4 : d = 0 ∨ d = 1 ∨ d = 2 ∨ d = 3)
    (hnone : holds d = none) :
    getKeyForDirection d ∈ (analyzeNotes notes t holds).1 ↔
      ∃ m, bestAbsDiff notes t d = some m ∧ m ≤ 80 := by
  have hkey : getKeyForDirection d ≠ "none" := by
    rcases hd4 with rfl | rfl | rfl | rfl <;> decide
  by_cases hne : notes = []
  · subst hne
    constructor
    · intro h
      simp [analyzeNotes] at h
    · rintro ⟨m, hm, _⟩
      simp [bestAbsDiff, laneCandidates, minDiff] at hm
  · rw [key_mem_acts_iff notes t holds d hd4 hne, expireHolds_of_none hnone]
    cases hsort : sortByDiff (hitableNotes notes t d) with
    | nil =>
        have hb : bestAbsDiff notes t d = none := by
          rw [bestAbsDiff_eq, hsort]; rfl
        simp [laneDecision, hsort, hb]
    | cons x tl =>
        obtain ⟨bn, bd⟩ := x
        have hb : bestAbsDiff notes t d = some bd := by
          rw [bestAbsDiff_eq, hsort]; rfl
        by_cases h80 : bd ≤ 80
        · simp [laneDecision, hsort, h80, hkey, hb]
        · simp [laneDecision, hsort, h80, hb]

/-- C1 witness: a single perfectly timed note on lane 0 with no active
hold instantiates the evaluator characterisation. -/
theorem evaluator_press_iff_witness :
    getKeyForDirection 0 ∈ (analyzeNotes [w1note] 0 (fun _ => none)).1 ↔
      ∃ m, bestAbsDiff [w1note] 0 0 = some m ∧ m ≤ 80 :=
  evaluator_press_iff [w1note] 0 (fun _ => none) 0 (Or.inl rfl) rfl

/-- A newly created hold entry starts at the snapshot's conductor time and
ends `max length 200` later. -/
theorem laneDecision_new_hold {notes : List Note} {t : ℚ} {d : Int}
    {h : Hold} (hnew : (laneDecision notes t none d).2 = some h) :
    h.startTime = t ∧ h.endTime = t + max h.note.length 200 := by
  unfold laneDecision at hnew
  cases hsort : sortByDiff (hitableNotes notes t d) with
  | nil => rw [hsort] at hnew; simp at hnew
  | cons x tl =>
      obtain ⟨bn, bd⟩ := x
      rw [hsort] at hnew
      by_cases h80 : bd ≤ 80
      · by_cases hk : getKeyForDirection d = "none"
        · simp [h80, hk] at hnew
        · by_cases hh : bn.isHoldNote
          · simp [h80, hk, hh] at hnew
            rw [← hnew]
            exact ⟨rfl, rfl⟩
          · simp [h80, hk, hh] at hnew
      · simp [h80] at hnew

/-- C2 (amended): when the evaluator accepts a hold note for a lane with
no prior hold, the created HoldState has `startTime` equal to the
snapshot's conductor time `t` and
`endTime = t + max(holdLengthMs, 200)` — the snapshot's conductor time,
not the note's own `conductorTime`, is the base of the end time. -/
theorem hold_end_time (notes : List Note) (t : ℚ) (holds : Holds) (d : Int)
    (h : Hold) (hnone : holds d = none)
    (hnew : (analyzeNotes notes t holds).2 d = some h) :
    h.startTime = t ∧ h.endTime = t + max h.note.length 200 := by
  by_cases hne : notes = []
  · subst hne
    have hsame : (analyzeNotes [] t holds).2 = holds := rfl
    rw [hsame, hnone] at hnew
    exact absurd hnew (by simp)
  · rw [analyzeNotes_holds_eq notes t holds hne d] at hnew
    have hexp : expireHolds t holds d = none := expireHolds_of_none hnone
    by_cases h3 : d = 3
    · subst h3; rw [if_pos rfl, hexp] at hnew; exact laneDecision_new_hold hnew
    · by_cases h2 : d = 2
      · subst h2
        rw [if_neg (by decide), if_pos rfl, hexp] at hnew
        exact laneDecision_new_hold hnew
      · by_cases h1 : d = 1
        · subst h1
          rw [if_neg (by decide), if_neg (by decide), if_pos rfl, hexp]
            at hnew
          exact laneDecision_new_hold hnew
        · by_cases h0 : d = 0
          · subst h0
            rw [if_neg (by decide), if_neg (by decide), if_neg (by decide),
              if_pos rfl, hexp] at hnew
            exact laneDecision_new_hold hnew
          · rw [if_neg h3, if_neg h2, if_neg h1, if_neg h0, hexp] at hnew
            exact absurd hnew (by simp)

/-- C2 counterexample: a hold note whose own conductor time is 1000,
accepted at snapshot conductor time 900, gets end time 1400 = 900 + 500,
not 1500 = referenceTime + max(holdLengthMs, 200) as the claim states. -/
theorem hold_end_time_cx :
    ((analyzeNotes [c2note] 900 emptyHolds).2 0).map Hold.endTime =
      some 1400 ∧
    refTime 900 c2note + max c2note.length 200 = 1500 ∧
    (1400 : ℚ) ≠ 1500 := by
  refine ⟨?_, ?_, by norm_num⟩
  · have hne : ([c2note] : List Note) ≠ [] := by simp
    rw [analyzeNotes_holds_eq [c2note] 900 emptyHolds hne 0]
    rw [if_neg (by decide), if_neg (by decide), if_neg (by decide),
      if_pos rfl]
    have hexp : expireHolds 900 emptyHolds 0 = none := rfl
    rw [hexp]
    have hhit : hitableNotes [c2note] 900 0 = [(c2note, 0)] := by
      norm_num [hitableNotes, List.filterMap_cons, List.filterMap_nil,
        isCandidate, c2note, timeDifference, refTime, HIT_WINDOW_MS]
    have hsort : sortByDiff (hitableNotes [c2note] 900 0) = [(c2note, 0)] := by
      rw [hhit]; rfl
    unfold laneDecision
    rw [hsort]
    norm_num [getKeyForDirection, c2note, max_def]
    rw [if_neg (show ¬("left" : String) = "none" by decide)]
    exact ⟨_, rfl, rfl⟩
  · norm_num [refTime, c2note, max_def]

/-- Evaluation of a 50 ms hold note accepted at conductor time 1000:
the created hold ends at 1200, the 200 ms floor applying. -/
theorem w2note_eval :
    (analyzeNotes [w2note] 1000 emptyHolds).2 1 = some ⟨1000, 1200, w2note⟩ := by
  have hne : ([w2note] : List Note) ≠ [] := by simp
  rw [analyzeNotes_holds_eq [w2note] 1000 emptyHolds hne 1]
  rw [if_neg (by decide), if_neg (by decide), if_pos rfl]
  have hexp : expireHolds 1000 emptyHolds 1 = none := rfl
  rw [hexp]
  have hhit : hitableNotes [w2note] 1000 1 = [(w2note, 0)] := by
    norm_num [hitableNotes, List.filterMap_cons, List.filterMap_nil,
      isCandidate, w2note, timeDifference, refTime, HIT_WINDOW_MS]
  have hsort : sortByDiff (hitableNotes [w2note] 1000 1) = [(w2note, 0)] := by
    rw [hhit]; rfl
  unfold laneDecision
  rw [hsort]
  norm_num [getKeyForDirection, w2note, max_def]
  rw [if_neg (show ¬("down" : String) = "none" by decide)]

/-- C2 witness: the accepted 50 ms hold note instantiates the amended end
time formula, `1200 = 1000 + max 50 200`. -/
theorem hold_end_time_witness :
    (⟨1000, 1200, w2note⟩ : Hold).startTime = 1000 ∧
    (⟨1000, 1200, w2note⟩ : Hold).endTime =
      1000 + max (⟨1000, 1200, w2note⟩ : Hold).note.length 200 :=
  hold_end_time [w2note] 1000 emptyHolds 1 ⟨1000, 1200, w2note⟩ rfl w2note_eval

/-- C3: any snapshot that is not a playing one (wrong main state or
`isPlaying` false) is answered with the idle output `none` and leaves the
tracker with no active hold on any lane. -/
theorem not_playing_clears (wall : ℚ) (gs : GameState) (holds : Holds)
    (h : gs.mainState ≠ "PLAYING" ∨ gs.isPlaying = false) :
    (stepLine wall (some gs) holds).1 = "none" ∧
    ∀ d, (stepLine wall (some gs) holds).2 d = none := by
  have hcond : ¬(gs.mainState = "PLAYING" ∧ gs.isPlaying = true) := by
    rcases h with h | h
    · exact fun hc => h hc.1
    · intro hc
      rw [h] at hc
      exact Bool.false_ne_true hc.2
  exact ⟨by simp [stepLine, hcond], fun d => by simp [stepLine, hcond]⟩

/-- C3 witness: a WAITING snapshot received while a hold is active yields
the idle response and clears the held lane. -/
theorem not_playing_clears_witness :
    (stepLine 0 (some gsWait) (setHold emptyHolds 0 (some c4hold))).1 =
      "none" ∧
    (stepLine 0 (some gsWait) (setHold emptyHolds 0 (some c4hold))).2 0 =
      none :=
  ⟨(not_playing_clears 0 gsWait (setHold emptyHolds 0 (some c4hold))
      (Or.inl (by decide))).1,
   (not_playing_clears 0 gsWait (setHold emptyHolds 0 (some c4hold))
      (Or.inl (by decide))).2 0⟩

/-- A hold that is still live at the snapshot's conductor time survives a
non-trivial evaluation cycle unchanged. -/
theorem holds_after_live (notes : List Note) (t : ℚ) (holds : Holds)
    (d : Int) (h : Hold) (hne : notes ≠ []) (hh : holds d = some h)
    (hl : t < h.endTime) :
    (analyzeNotes notes t holds).2 d = some h := by
  rw [analyzeNotes_holds_eq notes t holds hne d]
  have hexp : expireHolds t holds d = some h := expireHolds_live hh hl
  by_cases h3 : d = 3
  · subst h3; simp [hexp, laneDecision]
  · by_cases h2 : d = 2
    · subst h2; simp [hexp, laneDecision]
    · by_cases h1 : d = 1
      · subst h1; simp [hexp, laneDecision]
      · by_cases h0 : d = 0
        · subst h0; simp [hexp, laneDecision]
        · simp [h3, h2, h1, h0, hexp]

/-- A hold that is due at the snapshot's conductor time is removed before
its lane is evaluated: the lane proceeds as if it had no hold. -/
theorem holds_after_dead (notes : List Note) (t : ℚ) (holds : Holds)
    (d : Int) (h : Hold) (hne : notes ≠ []) (hh : holds d = some h)
    (hl : h.endTime ≤ t) :
    (analyzeNotes notes t holds).2 d =
      (if d = 3 then (laneDecision notes t none 3).2
       else if d = 2 then (laneDecision notes t none 2).2
       else if d = 1 then (laneDecision notes t none 1).2
       else if d = 0 then (laneDecision notes t none 0).2
       else none) := by
  rw [analyzeNotes_holds_eq notes t holds hne d]
  have hexp : expireHolds t holds d = none := expireHolds_dead hh hl
  by_cases h3 : d = 3
  · subst h3; simp [hexp]
  · by_cases h2 : d = 2
    · subst h2; simp [hexp]
    · by_cases h1 : d = 1
      · subst h1; simp [hexp]
      · by_cases h0 : d = 0
        · subst h0; simp [hexp]
        · simp [h3, h2, h1, h0, hexp]

/-- C4 counterexample: with an empty notes collection, `analyze_notes`
returns before the expiry sweep, so a hold whose end time (100) has
already passed (conductor time 150) stays active — the claimed
`Holding -> Idle` transition at `currentConductorTime >= endTime` does not
happen on that cycle. -/
theorem hold_transition_cx :
    (analyzeNotes [] 150 (setHold emptyHolds 0 (some c4hold))).2 0 =
      some c4hold ∧
    c4hold.endTime ≤ 150 :=
  ⟨rfl, by norm_num [c4hold]⟩

/-- C4 (amended): over evaluation cycles with a non-empty notes
collection, a held lane keeps exactly its current HoldState while
`t < endTime` (no re-arm with a different note), and is evaluated afresh —
the hold removed first — once `t ≥ endTime`; leaving the PLAYING state
clears every lane unconditionally.  A cycle with an empty notes collection
leaves the tracker untouched. -/
theorem hold_transition (notes : List Note) (t : ℚ) (holds : Holds)
    (d : Int) (h : Hold) :
    (notes ≠ [] → holds d = some h → t < h.endTime →
      (analyzeNotes notes t holds).2 d = some h) ∧
    (notes ≠ [] → holds d = some h → h.endTime ≤ t →
      (analyzeNotes notes t holds).2 d =
        (if d = 3 then (laneDecision notes t none 3).2
         else if d = 2 then (laneDecision notes t none 2).2
         else if d = 1 then (laneDecision notes t none 1).2
         else if d = 0 then (laneDecision notes t none 0).2
         else none)) ∧
    (∀ gs : GameState, ¬(gs.mainState = "PLAYING" ∧ gs.isPlaying = true) →
      ∀ wall d', (stepLine wall (some gs) holds).2 d' = none) ∧
    analyzeNotes [] t holds = ([], holds) := by
  refine ⟨fun hne hh hl => holds_after_live notes t holds d h hne hh hl,
    fun hne hh hl => holds_after_dead notes t holds d h hne hh hl,
    fun gs hgs wall d' => ?_, rfl⟩
  simp [stepLine, hgs]

/-- C4 witness: a live hold on lane 1 (end time 1000, conductor time 500)
survives a cycle with a non-empty notes collection. -/
theorem hold_transition_witness :
    (analyzeNotes [dummyNote] 500 (setHold emptyHolds 1 (some w5hold))).2 1 =
      some w5hold :=
  (hold_transition [dummyNote] 500 (setHold emptyHolds 1 (some w5hold)) 1
      w5hold).1 (by simp) rfl (by norm_num [w5hold])

/-- C5 counterexample: with an empty notes collection, a lane whose hold
is still live (conductor time 400, end time 900) is NOT reported as held —
the evaluation cycle returns no actions at all. -/
theorem live_hold_reported_cx :
    (analyzeNotes [] 400 (setHold emptyHolds 0 (some c5hold))).1 = [] ∧
    setHold emptyHolds 0 (some c5hold) 0 = some c5hold ∧
    (400 : ℚ) < c5hold.endTime ∧
    getKeyForDirection 0 ∉
      (analyzeNotes [] 400 (setHold emptyHolds 0 (some c5hold))).1 :=
  ⟨rfl, rfl, by norm_num [c5hold], by simp [analyzeNotes]⟩

/-- C5 (amended): on an evaluation cycle with a non-empty notes
collection, the expiry sweep runs before lane evaluation and every
playable lane with a still-live hold (`t < endTime`) is reported as held,
its HoldState unchanged; a cycle with an empty notes collection returns no
actions and leaves the tracker untouched, reporting nothing. -/
theorem live_hold_reported (notes : List Note) (t : ℚ) (holds : Holds)
    (d : Int) (h : Hold) :
    ((d = 0 ∨ d = 1 ∨ d = 2 ∨ d = 3) → notes ≠ [] → holds d = some h →
      t < h.endTime →
      getKeyForDirection d ∈ (analyzeNotes notes t holds).1 ∧
      (analyzeNotes notes t holds).2 d = some h) ∧
    analyzeNotes [] t holds = ([], holds) := by
  refine ⟨fun hd4 hne hh hl => ⟨?_, holds_after_live notes t holds d h hne hh hl⟩, rfl⟩
  rw [key_mem_acts_iff notes t holds d hd4 hne, expireHolds_live hh hl]
  simp [laneDecision]

/-- C5 witness: a live hold on lane 2 (end time 1000, conductor time 600)
is reported as held and survives the cycle. -/
theorem live_hold_reported_witness :
    getKeyForDirection 2 ∈
      (analyzeNotes [dummyNote] 600 (setHold emptyHolds 2 (some w5hold))).1 ∧
    (analyzeNotes [dummyNote] 600 (setHold emptyHolds 2 (some w5hold))).2 2 =
      some w5hold :=
  (live_hold_reported [dummyNote] 600 (setHold emptyHolds 2 (some w5hold)) 2
      w5hold).1 (Or.inr (Or.inr (Or.inl rfl))) (by simp) rfl
    (by norm_num [w5hold])

/-- Any task present after one note is considered was either already there
or was started for that note, with the horizon and delay of the source. -/
theorem processNote_mem (t : ℚ) (acc : List ℚ × List ScheduledTask)
    (n : CNote) (tk : ScheduledTask)
    (h : tk ∈ (processNote t acc n).2) :
    tk ∈ acc.2 ∨
      (noteId n ∉ acc.1 ∧
       (n.mayHit = true ∧ n.hasMissed = false ∧ n.tooEarly = false) ∧
       0 ≤ n.strumTime - t ∧ n.strumTime - t ≤ 150 ∧
       tk = ⟨noteId n, n.direction, max 0 (n.strumTime - t - 30)⟩) := by
  obtain ⟨sched, tasks⟩ := acc
  unfold processNote at h
  by_cases he : (n.mayHit && !n.hasMissed && !n.tooEarly) = true
  · rw [if_pos he] at h
    by_cases hm : noteId n ∈ sched
    · rw [if_pos hm] at h
      exact Or.inl h
    · rw [if_neg hm] at h
      by_cases hh : 0 ≤ n.strumTime - t ∧ n.strumTime - t ≤ 150
      · rw [if_pos hh] at h
        rcases List.mem_append.1 h with h1 | h2
        · exact Or.inl h1
        · refine Or.inr ⟨hm, ?_, hh.1, hh.2, by simpa using h2⟩
          simp only [Bool.and_eq_true, Bool.not_eq_true'] at he
          exact ⟨he.1.1, he.1.2, he.2⟩
      · rw [if_neg hh] at h
        exact Or.inl h
  · rw [if_neg he] at h
    exact Or.inl h

/-- Fold version of `processNote_mem` over a whole notes list. -/
theorem foldl_tasks_spec (t : ℚ) (notes : List CNote)
    (acc : List ℚ × List ScheduledTask) (tk : ScheduledTask)
    (h : tk ∈ (notes.foldl (processNote t) acc).2) :
    tk ∈ acc.2 ∨ ∃ n ∈ notes,
      (n.mayHit = true ∧ n.hasMissed = false ∧ n.tooEarly = false) ∧
      0 ≤ n.strumTime - t ∧ n.strumTime - t ≤ 150 ∧
      tk = ⟨noteId n, n.direction, max 0 (n.strumTime - t - 30)⟩ := by
  induction notes generalizing acc with
  | nil => exact Or.inl h
  | cons n ns ih =>
      rcases ih (processNote t acc n) h with h0 | ⟨m, hm, hp⟩
      · rcases processNote_mem t acc n tk h0 with h1 | h2
        · exact Or.inl h1
        · exact Or.inr ⟨n, List.mem_cons_self n ns, h2.2⟩
      · exact Or.inr ⟨m, List.mem_cons.2 (Or.inr hm), hp⟩

/-- C7: every task started while processing a message comes from a note of
that message inside the `[0, 150]` ms horizon, carries that note's
direction and identity, has press delay `max 0 (strumTime - t - 30)`, and
its timed trace presses at the delay and releases a fixed 60 ms later. -/
theorem scheduled_task_spec (t : ℚ) (notes : List CNote) (sched : List ℚ)
    (tk : ScheduledTask) (h : tk ∈ (processMessage t notes sched).2) :
    (∃ n ∈ notes, 0 ≤ n.strumTime - t ∧ n.strumTime - t ≤ 150 ∧
      tk.direction = n.direction ∧
      tk.delayMs = max 0 (n.strumTime - t - 30) ∧ tk.noteId = noteId n) ∧
    hitNote tk.direction tk.delayMs =
      [(tk.delayMs, tk.direction, true),
       (tk.delayMs + 60, tk.direction, false)] := by
  refine ⟨?_, rfl⟩
  unfold processMessage at h
  rcases foldl_tasks_spec t notes _ tk h with h0 | ⟨n, hn, _, h1, h2, heq⟩
  · simp at h0
  · exact ⟨n, hn, h1, h2, by rw [heq], by rw [heq], by rw [heq]⟩

/-- Evaluation of a message containing one schedulable note 100 ms ahead:
one task is started with press delay 70 = max 0 (100 - 30). -/
theorem wn7_eval : (processMessage 100 [wn7] []).2 = [⟨2001, 1, 70⟩] := by
  norm_num [processMessage, processNote, noteId, wn7]

/-- C7 witness: the task scheduled 100 ms ahead with 30 ms compensation
presses at offset 70 and releases at offset 130 = 70 + 60. -/
theorem scheduled_task_spec_witness :
    hitNote 1 70 = [((70 : ℚ), (1 : Int), true), (70 + 60, 1, false)] :=
  (scheduled_task_spec 100 [wn7] [] ⟨2001, 1, 70⟩
    (by rw [wn7_eval]; exact List.mem_singleton.2 rfl)).2

/-- One note step preserves the registry invariant: every started task's
identity is registered, and the started tasks carry distinct identities. -/
theorem processNote_inv (t : ℚ) (acc : List ℚ × List ScheduledTask)
    (n : CNote)
    (hinv : (∀ tk ∈ acc.2, tk.noteId ∈ acc.1) ∧
      (acc.2.map ScheduledTask.noteId).Nodup) :
    (∀ tk ∈ (processNote t acc n).2, tk.noteId ∈ (processNote t acc n).1) ∧
    ((processNote t acc n).2.map ScheduledTask.noteId).Nodup := by
  obtain ⟨sched, tasks⟩ := acc
  unfold processNote
  by_cases he : (n.mayHit && !n.hasMissed && !n.tooEarly) = true
  · rw [if_pos he]
    by_cases hm : noteId n ∈ sched
    · rw [if_pos hm]; exact hinv
    · rw [if_neg hm]
      by_cases hh : 0 ≤ n.strumTime - t ∧ n.strumTime - t ≤ 150
      · rw [if_pos hh]
        constructor
        · intro tk htk
          rcases List.mem_append.1 htk with h1 | h2
          · exact List.mem_append.2 (Or.inl (hinv.1 tk h1))
          · simp at h2
            subst h2
            exact List.mem_append.2 (Or.inr (by simp))
        · rw [List.map_append]
          refine hinv.2.append (List.nodup_singleton _) ?_
          intro x hx hx'
          simp at hx'
          subst hx'
          rcases List.mem_map.1 hx with ⟨tk, htk, hid⟩
          exact hm (hid ▸ hinv.1 tk htk)
      · rw [if_neg hh]; exact hinv
  · rw [if_neg he]; exact hinv

/-- Fold version of `processNote_inv`. -/
theorem foldl_sched_inv (t : ℚ) (notes : List CNote)
    (acc : List ℚ × List ScheduledTask)
    (hinv : (∀ tk ∈ acc.2, tk.noteId ∈ acc.1) ∧
      (acc.2.map ScheduledTask.noteId).Nodup) :
    ((notes.foldl (processNote t) acc).2.map ScheduledTask.noteId).Nodup := by
  induction notes generalizing acc with
  | nil => exact hinv.2
  | cons n ns ih => exact ih (processNote t acc n) (processNote_inv t acc n hinv)

/-- An identity registered before the fold stays registered and no task
started during the fold carries it. -/
theorem foldl_prereg (t : ℚ) (notes : List CNote)
    (acc : List ℚ × List ScheduledTask) (x : ℚ) (hx : x ∈ acc.1)
    (hnot : ∀ tk ∈ acc.2, tk.noteId ≠ x) :
    ∀ tk ∈ (notes.foldl (processNote t) acc).2, tk.noteId ≠ x := by
  induction notes generalizing acc with
  | nil => exact hnot
  | cons n ns ih =>
      refine ih (processNote t acc n) ?_ ?_
      · obtain ⟨sched, tasks⟩ := acc
        unfold processNote
        by_cases he : (n.mayHit && !n.hasMissed && !n.tooEarly) = true
        · rw [if_pos he]
          by_cases hm : noteId n ∈ sched
          · rw [if_pos hm]; exact hx
          · rw [if_neg hm]
            by_cases hh : 0 ≤ n.strumTime - t ∧ n.strumTime - t ≤ 150
            · rw [if_pos hh]; exact List.mem_append.2 (Or.inl hx)
            · rw [if_neg hh]; exact hx
        · rw [if_neg he]; exact hx
      · intro tk htk
        rcases processNote_mem t acc n tk htk with h1 | ⟨hnotin, _, _, _, heq⟩
        · exact hnot tk h1
        · rw [heq]
          intro hcontra
          have hcontra' : noteId n = x := hcontra
          exact hnotin (hcontra' ▸ hx)

/-- C6 (amended): within one processed message, the started tasks carry
pairwise distinct identity values `strumTime * 10 + laneDirection`, and a
note whose identity is already in the registry (and survives the cleanup
because the note is re-observed) starts no task — but two notes with
different `(strumTime, laneDirection)` pairs can collide to the same
identity value and are then treated as one identity. -/
theorem schedule_once_per_id (t : ℚ) (notes : List CNote)
    (sched : List ℚ) :
    ((processMessage t notes sched).2.map ScheduledTask.noteId).Nodup ∧
    (∀ n ∈ notes, noteId n ∈ sched →
      ∀ tk ∈ (processMessage t notes sched).2, tk.noteId ≠ noteId n) := by
  constructor
  · exact foldl_sched_inv t notes
      (sched.filter (fun i => i ∈ notes.map noteId), [])
      ⟨fun tk htk => absurd htk (List.not_mem_nil tk), List.nodup_nil⟩
  · intro n hn hpre tk htk
    refine foldl_prereg t notes
      (sched.filter (fun i => i ∈ notes.map noteId), []) (noteId n) ?_
      (fun tk' htk' => absurd htk' (List.not_mem_nil tk')) tk htk
    simp only [List.mem_filter]
    exact ⟨hpre, by simp; exact ⟨n, hn, rfl⟩⟩

/-- C6 counterexample: the notes (strumTime 100, lane 3) and
(strumTime 100.3, lane 0) have different pairs but equal identities
`100 * 10 + 3 = 1003 = 100.3 * 10 + 0`; processing a message containing
both schedulable notes starts only one task. -/
theorem schedule_once_per_id_cx :
    (cxA.strumTime, cxA.direction) ≠ (cxB.strumTime, cxB.direction) ∧
    noteId cxA = noteId cxB ∧
    (processMessage 100 [cxA, cxB] []).2 = [⟨1003, 3, 0⟩] := by
  refine ⟨by norm_num [cxA, cxB], by norm_num [noteId, cxA, cxB], ?_⟩
  norm_num [processMessage, processNote, noteId, cxA, cxB]

/-- Evaluation of a message whose first note is already registered: only
the second, unregistered note starts a task. -/
theorem wn_eval : (processMessage 0 [wnA, wnB] [500]).2 = [⟨601, 1, 30⟩] := by
  norm_num [processMessage, processNote, noteId, wnA, wnB]

/-- C6 witness: re-observing the registered identity 500 starts no task
for it; the one task started belongs to the other identity. -/
theorem schedule_once_per_id_witness :
    (⟨601, 1, 30⟩ : ScheduledTask).noteId ≠ noteId wnA :=
  (schedule_once_per_id 0 [wnA, wnB] [500]).2 wnA
    (List.mem_cons_self wnA [wnB]) (by norm_num [noteId, wnA])
    ⟨601, 1, 30⟩ (by rw [wn_eval]; exact List.mem_singleton.2 rfl)

/-- C8 counterexample: a note with `hasBeenHit = true` but passing the
actual filter (`mayHit`, not missed, not too early) inside the horizon is
scheduled — `process_message` never consults `hasBeenHit`. -/
theorem sched_ignores_hasBeenHit_cx :
    nHit.hasBeenHit = true ∧
    (processMessage 100 [nHit] []).2 = [⟨1002, 2, 0⟩] := by
  refine ⟨rfl, ?_⟩
  norm_num [processMessage, processNote, noteId, nHit]

/-- C8 (amended): the deferred dispatcher's eligibility filter is
`mayHit ∧ ¬hasMissed ∧ ¬tooEarly` and never consults `hasBeenHit`:
rewriting the `hasBeenHit` flag of every note in a message arbitrarily
leaves the result of processing that message unchanged. -/
theorem sched_ignores_hasBeenHit (t : ℚ) (notes : List CNote)
    (sched : List ℚ) (f : CNote → Bool) :
    processMessage t (notes.map fun n => { n with hasBeenHit := f n }) sched =
      processMessage t notes sched := by
  have hids : (notes.map fun n => { n with hasBeenHit := f n }).map noteId =
      notes.map noteId := by
    induction notes with
    | nil => rfl
    | cons n ns ih => simp only [List.map_cons, ih]; rfl
  unfold processMessage
  rw [hids, List.foldl_map]
  have hstep : (fun (acc : List ℚ × List ScheduledTask) (x : CNote) =>
      processNote t acc { x with hasBeenHit := f x }) = processNote t :=
    funext fun acc => funext fun x => rfl
  rw [hstep]

/-- C9: a line that does not decode to a snapshot object is answered with
the idle output `none` for that cycle, leaving the tracker untouched, and
the session goes on: every received complete line — well-formed or not —
gets exactly one response. -/
theorem decode_error_soft (wall : ℚ) (msgs : List (Option GameState))
    (holds : Holds) :
    (runSession wall msgs holds).1.length = msgs.length ∧
    ∀ hs : Holds, stepLine wall none hs = ("none", hs) := by
  refine ⟨?_, fun hs => rfl⟩
  induction msgs generalizing holds with
  | nil => rfl
  | cons m ms ih =>
      simp only [runSession, List.length_cons]
      rw [ih]

/-- Every part the splitter produces is free of the terminator. -/
theorem splitNl_no_nl (cs : List Char) : ∀ l ∈ splitNl cs, '\n' ∉ l := by
  induction cs with
  | nil =>
      intro l hl
      simp only [splitNl, List.mem_singleton] at hl
      subst hl
      simp
  | cons c cs ih =>
      intro l hl
      by_cases h : c = '\n'
      · rw [splitNl, if_pos h] at hl
        rcases List.mem_cons.1 hl with rfl | hml
        · simp
        · exact ih l hml
      · rw [splitNl, if_neg h] at hl
        cases hs : splitNl cs with
        | nil =>
            rw [hs] at hl
            simp only [List.mem_singleton] at hl
            subst hl
            simp only [List.mem_singleton]
            exact fun hc => h hc.symm
        | cons m ms =>
            rw [hs] at hl
            rcases List.mem_cons.1 hl with rfl | hml
            · intro hmem
              rcases List.mem_cons.1 hmem with h1 | h2
              · exact h h1.symm
              · exact ih m (by rw [hs]; exact List.mem_cons_self m ms) h2
            · exact ih l (by rw [hs]; exact List.mem_cons.2 (Or.inr hml))

/-- Every line the reader yields is terminator-free and non-blank. -/
theorem feed_lines (buf data : List Char) :
    ∀ l ∈ (feed buf data).1, '\n' ∉ l ∧ keepLine l = true := by
  intro l hl
  unfold feed at hl
  have hl' := List.mem_filter.1 hl
  exact ⟨splitNl_no_nl (buf ++ data) l ((List.dropLast_sublist _).subset hl'.1),
    hl'.2⟩

/-- C10: the reader carries the trailing incomplete line across feeds and
splits on the terminator: feeding "a", then "bc\n", then "d\n" yields
exactly "abc" then "d" with an empty residual buffer; a whitespace-only
line is dropped; and in general no yielded line contains the terminator
and every yielded line is non-blank. -/
theorem frame_reader_spec :
    feed [] ['a'] = ([], ['a']) ∧
    feed ['a'] ['b', 'c', '\n'] = ([['a', 'b', 'c']], []) ∧
    feed [] ['d', '\n'] = ([['d']], []) ∧
    feed [] [' ', '\n'] = ([], []) ∧
    ∀ buf data l, l ∈ (feed buf data).1 → '\n' ∉ l ∧ keepLine l = true := by
  refine ⟨by decide, by decide, by decide, by decide, ?_⟩
  intro buf data l hl
  exact feed_lines buf data l hl

/-- C10 witness: the yielded line "d" contains no terminator and is kept. -/
theorem frame_reader_spec_witness :
    '\n' ∉ (['d'] : List Char) ∧ keepLine ['d'] = true :=
  frame_reader_spec.2.2.2.2 [] ['d', '\n'] ['d'] (by decide)
